import Mathlib

/-!
Verification development for the doclet repository (ingest.py, app.py).

Strings manipulated by `clean_response` are modelled as `List Char`; file
byte contents are modelled as `List Nat`.  External collaborators (the
SHA-256 digest, the document loaders, the vector index) are abstract
parameters constrained only by their documented contracts.
-/

/-- Python `str.strip()` whitespace class, restricted to the ASCII
whitespace characters Python strips. -/
def isPySpace (c : Char) : Bool :=
  c == ' ' || c == '\t' || c == '\n' || c == '\r' || c == '\x0b' || c == '\x0c'

/-- Python `str.strip()` on a character list. -/
def pyStrip (l : List Char) : List Char :=
  ((l.dropWhile isPySpace).reverse.dropWhile isPySpace).reverse

/-- Python `str.lower()` on a character list (ASCII). -/
def pyLower (l : List Char) : List Char :=
  l.map Char.toLower

/-- Python `hay.find(sub)` restricted to the found case: index of the first
occurrence of `sub` in `hay`, `none` when absent (`sub in hay` is
`(findSub hay sub).isSome`). -/
def findSub (hay sub : List Char) : Option Nat :=
  if sub.isPrefixOf hay then some 0
  else
    match hay with
    | [] => none
    | _ :: rest => (findSub rest sub).map (· + 1)

/-- Python `s.split('\x5cn')`: always returns at least one piece; pieces
contain no newline. -/
def splitNl : List Char → List (List Char)
  | [] => [[]]
  | c :: rest =>
    if c == '\n' then [] :: splitNl rest
    else
      match splitNl rest with
      | [] => [[c]]
      | l :: ls => (c :: l) :: ls

/-- Case-insensitive literal prefix test, used to embed the `re.IGNORECASE`
anchored alternatives of `clean_response`'s prefix patterns. -/
def isPrefixCI (kw l : List Char) : Bool :=
  pyLower (l.take kw.length) == pyLower kw

/-- Length matched at the current position by the first boilerplate pattern
of `clean_response`, `^(Answer|Response|Assistant|AI):\s*` with
IGNORECASE; `0` means no match (a match is never empty: it contains the
keyword and the colon). -/
def matchPat1 (l : List Char) : Nat :=
  let n :=
    if isPrefixCI "Answer:".toList l then 7
    else if isPrefixCI "Response:".toList l then 9
    else if isPrefixCI "Assistant:".toList l then 10
    else if isPrefixCI "AI:".toList l then 3
    else 0
  if n = 0 then 0 else n + ((l.drop n).takeWhile isPySpace).length

/-- Third group of the second boilerplate pattern:
`(documents?|context|information)`, greedy on the optional `s`. -/
def matchGroup3 (l : List Char) : Option Nat :=
  if isPrefixCI "documents".toList l then some 9
  else if isPrefixCI "document".toList l then some 8
  else if isPrefixCI "context".toList l then some 7
  else if isPrefixCI "information".toList l then some 11
  else none

/-- Length matched at the current position by the second boilerplate
pattern of `clean_response`,
`^(According to|Based on) (the )?(documents?|context|information)[,:]?\s*`
with IGNORECASE; `0` means no match. -/
def matchPat2 (l : List Char) : Nat :=
  let n1 :=
    if isPrefixCI "According to ".toList l then 13
    else if isPrefixCI "Based on ".toList l then 9
    else 0
  if n1 = 0 then 0
  else
    let l2 := l.drop n1
    let g3 :=
      if isPrefixCI "the ".toList l2 then
        match matchGroup3 (l2.drop 4) with
        | some n3 => some (4 + n3)
        | none => matchGroup3 l2
      else matchGroup3 l2
    match g3 with
    | none => 0
    | some m =>
      let c1 := n1 + m
      let c2 := c1 + (match (l.drop c1).head? with
        | some ',' => 1
        | some ':' => 1
        | _ => 0)
      c2 + ((l.drop c2).takeWhile isPySpace).length

/-- One pass of `re.sub(pattern, '', answer, flags=IGNORECASE|MULTILINE)`
for an anchored (`^`) pattern given by a match-length function `pat`:
scan left to right, attempt the pattern at the string start and after each
newline, remove each non-overlapping match.  `fuel` bounds recursion depth
(callers pass the string length; every step consumes at least one
character). -/
def reSubAux (pat : List Char → Nat) : Nat → List Char → Bool → List Char
  | 0, l, _ => l
  | _ + 1, [], _ => []
  | fuel + 1, c :: rest, atStart =>
    if atStart then
      let m := pat (c :: rest)
      if m = 0 then c :: reSubAux pat fuel rest (c == '\n')
      else reSubAux pat fuel ((c :: rest).drop m)
        (decide (((c :: rest).take m).getLast? = some '\n'))
    else c :: reSubAux pat fuel rest (c == '\n')

/-- `re.sub(pattern, '', answer, flags=IGNORECASE|MULTILINE)` for an
anchored pattern. -/
def reSub (pat : List Char → Nat) (l : List Char) : List Char :=
  reSubAux pat l.length l true

/-- The duplicate-line removal loop of `clean_response`: keep the first
occurrence of each lowercased stripped line, dropping empty lines,
already-seen lines and lines of stripped length at most 3. -/
def dedupLines : List (List Char) → List (List Char) → List (List Char)
  | [], _ => []
  | line :: rest, seen =>
    let lineClean := pyLower (pyStrip line)
    if lineClean ≠ [] ∧ lineClean ∉ seen ∧ 3 < lineClean.length then
      pyStrip line :: dedupLines rest (lineClean :: seen)
    else dedupLines rest seen

/-- The text-rewriting pipeline of `clean_response` (app.py lines 176-205):
trim, excise the echoed question when it occurs in the first 150
characters, strip boilerplate prefixes, deduplicate lines and re-join. -/
def cleanPipeline (response original_question : List Char) : List Char :=
  let answer := pyStrip response
  let answer :=
    if (findSub ((pyLower answer).take 150) (pyLower original_question)).isSome then
      if (findSub (pyLower answer) (pyLower original_question)).isSome then
        match findSub (pyLower answer) (pyLower original_question) with
        | some idx => pyStrip (answer.drop (idx + original_question.length))
        | none => answer
      else answer
    else answer
  let answer := reSub matchPat1 answer
  let answer := reSub matchPat2 answer
  let unique_lines := dedupLines (splitNl answer) []
  pyStrip (List.intercalate ['\n'] unique_lines)

/-- `clean_response(response, original_question)` of app.py: run the
pipeline, then reject (return `none`) results shorter than 15 characters
or case-insensitively equal to the original question. -/
def clean_response (response original_question : List Char) : Option (List Char) :=
  let answer := cleanPipeline response original_question
  if answer.length < 15 ∨ pyLower answer = pyLower original_question then none
  else some answer

/-!
## Ingestion pipeline (ingest.py)
-/

/-- The 8192-byte blocks produced by `iter(lambda: f.read(8192), b"")` in
`compute_file_hash`; `fuel` bounds recursion (callers pass the content
length, and each step consumes at least one byte). -/
def readChunksAux : Nat → List Nat → List (List Nat)
  | 0, _ => []
  | fuel + 1, bytes =>
    if bytes.isEmpty then []
    else bytes.take 8192 :: readChunksAux fuel (bytes.drop 8192)

/-- File content as the sequence of blocks streamed by
`compute_file_hash`. -/
def readChunks (bytes : List Nat) : List (List Nat) :=
  readChunksAux bytes.length bytes

/-- Incremental SHA-256 hasher state: `hashlib.sha256()` absorbs the bytes
fed to `update`; the digest itself is the external collaborator `digest`
applied to all absorbed bytes. -/
structure Sha256 where
  absorbed : List Nat
deriving DecidableEq

/-- `hashlib.sha256()`. -/
def Sha256.new : Sha256 := ⟨[]⟩

/-- `hasher.update(chunk)`. -/
def Sha256.update (h : Sha256) (chunk : List Nat) : Sha256 :=
  ⟨h.absorbed ++ chunk⟩

/-- `hasher.hexdigest()`, with the actual SHA-256 compression abstracted as
the function `digest` from byte content to hex string. -/
def Sha256.hexdigest (digest : List Nat → String) (h : Sha256) : String :=
  digest h.absorbed

/-- `compute_file_hash(path)` of ingest.py, applied to the byte content of
the file at `path`: stream the content in 8192-byte blocks through the
hasher and return the hex digest. -/
def compute_file_hash (digest : List Nat → String) (content : List Nat) : String :=
  Sha256.hexdigest digest ((readChunks content).foldl Sha256.update Sha256.new)

/-- Python `d.get(k)` on the manifest dictionary (keys are unique). -/
def dictGet : List (String × String) → String → Option String
  | [], _ => none
  | (k, v) :: rest, key => if k = key then some v else dictGet rest key

/-- Python `d[k] = v` on the manifest dictionary: replace the value of an
existing key in place, otherwise append the new binding. -/
def dictSet : List (String × String) → String → String → List (String × String)
  | [], k, v => [(k, v)]
  | (k', v') :: rest, k, v =>
    if k' = k then (k, v) :: rest else (k', v') :: dictSet rest k v

/-- The characters after the last `/` of a path. -/
def lastComponent (l : List Char) : List Char :=
  l.foldl (fun acc c => if c = '/' then [] else acc ++ [c]) []

/-- `os.path.basename`: the final path component. -/
def basename (p : String) : String :=
  String.mk (lastComponent p.toList)

/-- A langchain `Document`: page text plus metadata dictionary. -/
structure Document where
  page_content : List Char
  metadata : List (String × String)
deriving DecidableEq

/-- The change check of `load_new_or_changed_documents` (ingest.py line 66):
a file needs ingestion when the manifest entry for its path differs from
(or is absent for) the freshly computed hash; the code skips the file
exactly when this is `false`. -/
def needsIngestion (manifest : List (String × String)) (file_path : String)
    (file_hash : String) : Bool :=
  !(dictGet manifest file_path == some file_hash)

/-- The per-file loop of `load_new_or_changed_documents` (ingest.py lines
62-90).  `load` is the external format-specific loader
(UnstructuredMarkdownLoader / TextLoader / PyPDFLoader), which may raise
(`Except.error`); an error propagates uncaught, aborting the whole run.
Each file is either skipped (manifest hash equal) or loaded, its documents
tagged with `source = basename path` and its manifest entry staged. -/
def processFiles (digest : List Nat → String)
    (load : String → List Nat → Except String (List Document))
    (ingested_hashes : List (String × String)) :
    List (String × List Nat) → List Document × List (String × String) →
    Except String (List Document × List (String × String))
  | [], acc => .ok acc
  | (file_path, content) :: rest, (documents, updated_hashes) =>
    let file_hash := compute_file_hash digest content
    if dictGet ingested_hashes file_path = some file_hash then
      processFiles digest load ingested_hashes rest (documents, updated_hashes)
    else
      match load file_path content with
      | .error e => .error e
      | .ok loaded_docs =>
        let source_name := basename file_path
        let tagged := loaded_docs.map fun doc =>
          { doc with metadata := dictSet doc.metadata "source" source_name }
        processFiles digest load ingested_hashes rest
          (documents ++ tagged, dictSet updated_hashes file_path file_hash)

/-- `load_new_or_changed_documents()` of ingest.py over a model file system
`files` (the glob result: path plus byte content) and the manifest loaded
from disk: returns the loaded documents and the updated manifest copy. -/
def load_new_or_changed_documents (digest : List Nat → String)
    (load : String → List Nat → Except String (List Document))
    (files : List (String × List Nat)) (ingested_hashes : List (String × String)) :
    Except String (List Document × List (String × String)) :=
  processFiles digest load ingested_hashes files ([], ingested_hashes)

/-- Modelled from the spec: the recursive character splitter
(`RecursiveCharacterTextSplitter(chunk_size=500, chunk_overlap=50,
separators=["\x5cn\x5cn", "\x5cn", " ", ""])`) is external langchain code
absent from src/.  Following spec section 4.3, a cut point is the end of
the last occurrence of the earliest separator in the priority list that
lies inside the window `(overlap, chunk_size]`; `findCutFrom` scans
candidate cut positions downward from `chunk_size`. -/
def findCutFrom (t sep : List Char) : Nat → Option Nat
  | 0 => none
  | c + 1 =>
    if 50 < c + 1 ∧ sep.length ≤ c + 1 ∧ sep.isPrefixOf (t.drop (c + 1 - sep.length)) then
      some (c + 1)
    else findCutFrom t sep c

/-- Modelled from the spec: best cut position for a text longer than the
chunk size — prefer a paragraph break, then a line break, then a space,
falling back to a hard cut at 500 (the empty-string separator). -/
def bestCut (t : List Char) : Nat :=
  match findCutFrom t ['\n', '\n'] 500 with
  | some c => c
  | none =>
    match findCutFrom t ['\n'] 500 with
    | some c => c
    | none =>
      match findCutFrom t [' '] 500 with
      | some c => c
      | none => 500

/-- Modelled from the spec: split one text into fragments of at most 500
characters, consecutive fragments overlapping by 50 characters; `fuel`
bounds recursion (callers pass the text length; every step drops at least
one character). -/
def chunkTextAux : Nat → List Char → List (List Char)
  | 0, t => [t]
  | fuel + 1, t =>
    if t.length ≤ 500 then [t]
    else t.take (bestCut t) :: chunkTextAux fuel (t.drop (bestCut t - 50))

/-- Modelled from the spec: `Chunker.split` on one document text. -/
def chunkText (t : List Char) : List (List Char) :=
  chunkTextAux t.length t

/-- `split_documents(documents)` of ingest.py: split every document,
each fragment carrying its source document's metadata, fragments in
document order. -/
def split_documents (documents : List Document) : List Document :=
  documents.flatMap fun doc =>
    (chunkText doc.page_content).map fun t =>
      { page_content := t, metadata := doc.metadata }

/-- `ingest()` of ingest.py.  Returns the summary string (or the uncaught
loader error) together with the manifest persisted on disk after the run:
the updated manifest is saved only on the success path; on the early
returns and on an uncaught loader error the on-disk manifest stays
`manifest0`.  The embedding-and-Chroma step is an external side effect
with no bearing on the returned string or the manifest. -/
def ingest (docsDirExists : Bool) (digest : List Nat → String)
    (load : String → List Nat → Except String (List Document))
    (files : List (String × List Nat)) (manifest0 : List (String × String)) :
    Except String String × List (String × String) :=
  if docsDirExists = false then
    (.ok "Created docs. Please upload documents.", manifest0)
  else
    match load_new_or_changed_documents digest load files manifest0 with
    | .error e => (.error e, manifest0)
    | .ok (documents, updated_hashes) =>
      if documents.isEmpty then
        (.ok "No new or changed documents to ingest.", manifest0)
      else
        let chunks := split_documents documents
        (.ok ("Success! Ingested " ++ toString documents.length ++ " documents ("
            ++ toString chunks.length ++ " chunks)."), updated_hashes)

/-!
## Retrieval (app.py)
-/

/-- The external Chroma handle: `similarity_search_with_score` may raise
(`Except.error`); on success it returns candidate fragments with distance
scores (modelled as rationals, smaller is closer). -/
structure VectorStore where
  similarity_search_with_score : String → Nat → List String → Except String (List (Document × Rat))

/-- `retrieve_relevant_documents(vector_store, query, selected_docs, k,
threshold)` of app.py: empty on a missing store or empty selection, empty
on a query error, otherwise the candidates filtered to distance scores at
most the threshold. -/
def retrieve_relevant_documents (vector_store : Option VectorStore) (query : String)
    (selected_docs : List String) (k : Nat) (threshold : Rat) :
    List (Document × Rat) :=
  match vector_store with
  | none => []
  | some vs =>
    if selected_docs.isEmpty then []
    else
      match vs.similarity_search_with_score query k selected_docs with
      | .error _ => []
      | .ok results => results.filter fun ds => ds.2 ≤ threshold

/-!
## Auxiliary definitions for stating the claims
-/

/-- Concatenation of all fragments after the first with their leading
50-character overlap removed (the tail of the reconstruction described in
spec section 8). -/
def dropOverlapCat : List (List Char) → List Char
  | [] => []
  | f :: fs => f.drop 50 ++ dropOverlapCat fs

/-- Concatenation of a fragment list with the 50-character boundary
overlaps removed: the first fragment whole, every later fragment without
its first 50 characters. -/
def reconstructOverlap : List (List Char) → List Char
  | [] => []
  | f :: fs => f ++ dropOverlapCat fs

/-- A concrete stand-in for the external SHA-256 hex digest, used in
witnesses: one letter per byte. -/
def demoDigest (bs : List Nat) : String :=
  String.mk (bs.map fun n => Char.ofNat (65 + n))

/-- A concrete loader for witnesses: every file yields one document. -/
def demoLoad : String → List Nat → Except String (List Document) :=
  fun _ _ => .ok [{ page_content := "hello world from the file".toList, metadata := [] }]

/-- A concrete file system for witnesses: one markdown file. -/
def demoFiles : List (String × List Nat) := [("docs/a.md", [7, 7])]

/-- The manifest persisted by a first ingestion run over `demoFiles`. -/
def demoM1 : List (String × String) := [("docs/a.md", demoDigest [7, 7])]

/-- A loader whose second file is corrupted, for the error-handling
claim: loading `docs/bad.md` raises. -/
def badLoad : String → List Nat → Except String (List Document) :=
  fun p _ =>
    if p = "docs/bad.md" then .error "corrupt file: docs/bad.md"
    else .ok [{ page_content := "ok".toList, metadata := [] }]

/-- Three files, the middle one corrupted, for the error-handling claim. -/
def c4Files : List (String × List Nat) :=
  [("docs/ok1.md", [1]), ("docs/bad.md", [2]), ("docs/ok2.md", [3])]

/-- A concrete vector store for the retrieval witness: two candidates at
distances 1 and 2. -/
def demoStore : VectorStore :=
  ⟨fun _ _ _ => .ok [({ page_content := ['a'], metadata := [] }, 1),
                     ({ page_content := ['b'], metadata := [] }, 2)]⟩

instance {ε α : Type} [DecidableEq ε] [DecidableEq α] : DecidableEq (Except ε α) := fun x y =>
  match x, y with
  | .ok a, .ok b =>
    if h : a = b then .isTrue (by rw [h]) else .isFalse fun hh => h (Except.ok.inj hh)
  | .error a, .error b =>
    if h : a = b then .isTrue (by rw [h]) else .isFalse fun hh => h (Except.error.inj hh)
  | .ok _, .error _ => .isFalse fun hh => Except.noConfusion hh
  | .error _, .ok _ => .isFalse fun hh => Except.noConfusion hh

/-!
## Lemmas about the manifest dictionary
-/

theorem dictGet_dictSet_self (m : List (String × String)) (k v : String) :
    dictGet (dictSet m k v) k = some v := by
  induction m with
  | nil => simp [dictSet, dictGet]
  | cons kv rest ih =>
    obtain ⟨k', v'⟩ := kv
    by_cases h : k' = k
    · subst h; simp [dictSet, dictGet]
    · simp [dictSet, dictGet, h, ih]

theorem dictGet_dictSet_other (m : List (String × String)) (k v q : String)
    (h : k ≠ q) : dictGet (dictSet m k v) q = dictGet m q := by
  induction m with
  | nil => simp [dictSet, dictGet, h]
  | cons kv rest ih =>
    obtain ⟨k', v'⟩ := kv
    by_cases hk : k' = k
    · subst hk; simp [dictSet, dictGet, h]
    · by_cases hq : k' = q
      · subst hq; simp [dictSet, dictGet, hk]
      · simp [dictSet, dictGet, hk, hq, ih]

theorem needsIngestion_false_iff (m : List (String × String)) (p h : String) :
    needsIngestion m p h = false ↔ dictGet m p = some h := by
  simp [needsIngestion]

/-!
## The streamed hash equals the digest of the whole content
-/

theorem foldl_update_absorbed :
    ∀ (fuel : Nat) (bytes : List Nat) (s : Sha256), bytes.length ≤ fuel →
      ((readChunksAux fuel bytes).foldl Sha256.update s).absorbed = s.absorbed ++ bytes := by
  intro fuel
  induction fuel with
  | zero =>
    intro bytes s h
    have hb : bytes = [] := List.eq_nil_of_length_eq_zero (Nat.le_zero.mp h)
    subst hb; simp [readChunksAux]
  | succ fuel ih =>
    intro bytes s h
    by_cases hb : bytes.isEmpty
    · have hb' : bytes = [] := by simpa [List.isEmpty_iff] using hb
      subst hb'; simp [readChunksAux]
    · have hne : bytes ≠ [] := by simpa [List.isEmpty_iff] using hb
      have hpos : 1 ≤ bytes.length := by
        cases bytes with
        | nil => exact absurd rfl hne
        | cons a t => simp
      simp only [readChunksAux, hb, if_neg, Bool.false_eq_true, not_false_eq_true,
        if_false, List.foldl_cons]
      rw [ih (bytes.drop 8192) (Sha256.update s (bytes.take 8192))
        (by simp [List.length_drop]; omega)]
      simp [Sha256.update, List.append_assoc]

theorem compute_file_hash_eq (digest : List Nat → String) (content : List Nat) :
    compute_file_hash digest content = digest content := by
  unfold compute_file_hash Sha256.hexdigest readChunks
  rw [foldl_update_absorbed content.length content Sha256.new (Nat.le_refl _)]
  simp [Sha256.new]

/-!
## Chunker lemmas
-/

theorem findCutFrom_bounds (t sep : List Char) :
    ∀ (n c : Nat), findCutFrom t sep n = some c → 50 < c ∧ c ≤ n := by
  intro n
  induction n with
  | zero => intro c h; simp [findCutFrom] at h
  | succ n ih =>
    intro c h
    rw [findCutFrom] at h
    split at h
    · rename_i hcond
      cases h
      exact ⟨hcond.1, Nat.le_refl _⟩
    · have := ih c h
      exact ⟨this.1, Nat.le_succ_of_le this.2⟩

theorem bestCut_bounds (t : List Char) : 50 < bestCut t ∧ bestCut t ≤ 500 := by
  unfold bestCut
  split
  · next c h => exact findCutFrom_bounds t _ 500 c h
  · split
    · next c h => exact findCutFrom_bounds t _ 500 c h
    · split
      · next c h => exact findCutFrom_bounds t _ 500 c h
      · exact ⟨by omega, Nat.le_refl _⟩

theorem chunkTextAux_ne_nil (fuel : Nat) (t : List Char) : chunkTextAux fuel t ≠ [] := by
  cases fuel with
  | zero => simp [chunkTextAux]
  | succ fuel => rw [chunkTextAux]; split <;> simp

theorem chunkTextAux_length_le :
    ∀ (fuel : Nat) (t : List Char), t.length ≤ fuel →
      ∀ c ∈ chunkTextAux fuel t, c.length ≤ 500 := by
  intro fuel
  induction fuel with
  | zero =>
    intro t h c hc
    have ht : t = [] := List.eq_nil_of_length_eq_zero (Nat.le_zero.mp h)
    subst ht
    simp [chunkTextAux] at hc
    simp [hc]
  | succ fuel ih =>
    intro t h c hc
    rw [chunkTextAux] at hc
    split at hc
    · next hle => simp at hc; subst hc; omega
    · next hgt =>
      push_neg at hgt
      rcases List.mem_cons.mp hc with hc | hc
      · subst hc
        have := (bestCut_bounds t).2
        simp [List.length_take]
        omega
      · have hb := (bestCut_bounds t).1
        exact ih (t.drop (bestCut t - 50)) (by simp [List.length_drop]; omega) c hc

theorem chunkHeadLong :
    ∀ (fuel : Nat) (t : List Char), t.length ≤ fuel → 50 ≤ t.length →
      ∃ h hs, chunkTextAux fuel t = h :: hs ∧ 50 ≤ h.length := by
  intro fuel
  cases fuel with
  | zero =>
    intro t hf h50
    have ht : t = [] := List.eq_nil_of_length_eq_zero (Nat.le_zero.mp hf)
    subst ht; simp at h50
  | succ fuel =>
    intro t hf h50
    rw [chunkTextAux]
    split
    · exact ⟨t, [], rfl, h50⟩
    · next hgt =>
      push_neg at hgt
      refine ⟨t.take (bestCut t), _, rfl, ?_⟩
      have := bestCut_bounds t
      simp [List.length_take]
      omega

theorem drop_append_of_le {α : Type} :
    ∀ (n : Nat) (l₁ l₂ : List α), n ≤ l₁.length →
      (l₁ ++ l₂).drop n = l₁.drop n ++ l₂ := by
  intro n
  induction n with
  | zero => intro l₁ l₂ _; simp
  | succ n ih =>
    intro l₁ l₂ h
    cases l₁ with
    | nil => simp at h
    | cons a t => simpa using ih t l₂ (by simpa using h)

theorem reconstruct_chunkTextAux :
    ∀ (fuel : Nat) (t : List Char), t.length ≤ fuel →
      reconstructOverlap (chunkTextAux fuel t) = t := by
  intro fuel
  induction fuel with
  | zero =>
    intro t h
    have ht : t = [] := List.eq_nil_of_length_eq_zero (Nat.le_zero.mp h)
    subst ht; simp [chunkTextAux, reconstructOverlap, dropOverlapCat]
  | succ fuel ih =>
    intro t h
    rw [chunkTextAux]
    split
    · simp [reconstructOverlap, dropOverlapCat]
    · next hgt =>
      push_neg at hgt
      have hb := bestCut_bounds t
      have hlen' : (t.drop (bestCut t - 50)).length = t.length - (bestCut t - 50) := by
        simp [List.length_drop]
      have hfuel' : (t.drop (bestCut t - 50)).length ≤ fuel := by omega
      have h50' : 50 ≤ (t.drop (bestCut t - 50)).length := by omega
      obtain ⟨hd, hs, hc, hhl⟩ := chunkHeadLong fuel _ hfuel' h50'
      have hrec := ih _ hfuel'
      rw [hc] at hrec ⊢
      simp only [reconstructOverlap, dropOverlapCat] at hrec ⊢
      have hsplit : List.drop 50 hd ++ dropOverlapCat hs
          = (hd ++ dropOverlapCat hs).drop 50 := by
        rw [drop_append_of_le 50 hd (dropOverlapCat hs) hhl]
      rw [hsplit, hrec, List.drop_drop]
      have hnum : bestCut t - 50 + 50 = bestCut t := by omega
      rw [hnum, List.take_append_drop]

/-!
## processFiles lemmas
-/

theorem processFiles_stable (digest : List Nat → String)
    (load : String → List Nat → Except String (List Document))
    (ingested : List (String × String)) :
    ∀ (files : List (String × List Nat)) (p : String), p ∉ files.map Prod.fst →
      ∀ d m docs m',
        processFiles digest load ingested files (d, m) = .ok (docs, m') →
        dictGet m' p = dictGet m p := by
  intro files
  induction files with
  | nil =>
    intro p _ d m docs m' h
    simp [processFiles] at h
    rw [h.2]
  | cons fc rest ih =>
    obtain ⟨fp, content⟩ := fc
    intro p hp d m docs m' h
    have hp1 : fp ≠ p := by
      simp at hp; exact fun heq => hp.1 heq.symm
    have hp2 : p ∉ rest.map Prod.fst := by
      simp at hp ⊢; exact hp.2
    rw [processFiles] at h
    split at h
    · exact ih p hp2 d m docs m' h
    · cases hl : load fp content with
      | error e => rw [hl] at h; simp at h
      | ok ds =>
        rw [hl] at h
        simp only at h
        have := ih p hp2 _ _ docs m' h
        rw [this, dictGet_dictSet_other _ _ _ _ hp1]

theorem processFiles_lookup (digest : List Nat → String)
    (load : String → List Nat → Except String (List Document))
    (ingested : List (String × String)) :
    ∀ (files : List (String × List Nat)), (files.map Prod.fst).Nodup →
      ∀ d m docs m',
        (∀ pc ∈ files, dictGet m pc.1 = dictGet ingested pc.1) →
        processFiles digest load ingested files (d, m) = .ok (docs, m') →
        ∀ pc ∈ files, dictGet m' pc.1 = some (compute_file_hash digest pc.2) := by
  intro files
  induction files with
  | nil => intro _ d m docs m' _ _ pc hmem; simp at hmem
  | cons fc rest ih =>
    obtain ⟨fp, content⟩ := fc
    intro hnd d m docs m' hagree h pc hmem
    have hh : (fp :: rest.map Prod.fst).Nodup := by
      rw [List.map_cons] at hnd; exact hnd
    have hnd1 : fp ∉ rest.map Prod.fst := (List.nodup_cons.mp hh).1
    have hnd2 : (rest.map Prod.fst).Nodup := (List.nodup_cons.mp hh).2
    rw [processFiles] at h
    split at h
    · next hskip =>
      rcases List.mem_cons.mp hmem with hpc | hpc
      · subst hpc
        have hstable := processFiles_stable digest load ingested rest fp hnd1 d m docs m' h
        rw [hstable]
        rw [hagree (fp, content) (List.mem_cons_self _ _)]
        exact hskip
      · exact ih hnd2 d m docs m'
          (fun qc hqc => hagree qc (List.mem_cons_of_mem _ hqc)) h pc hpc
    · next hskip =>
      cases hl : load fp content with
      | error e => rw [hl] at h; simp at h
      | ok ds =>
        rw [hl] at h
        simp only at h
        rcases List.mem_cons.mp hmem with hpc | hpc
        · subst hpc
          have hstable := processFiles_stable digest load ingested rest fp hnd1 _ _ docs m' h
          rw [hstable, dictGet_dictSet_self]
        · refine ih hnd2 _ _ docs m' ?_ h pc hpc
          intro qc hqc
          have hqp : fp ≠ qc.1 := by
            intro heq
            exact hnd1 (by rw [heq]; exact List.mem_map_of_mem Prod.fst hqc)
          rw [dictGet_dictSet_other _ _ _ _ hqp]
          exact hagree qc (List.mem_cons_of_mem _ hqc)

theorem processFiles_all_skip (digest : List Nat → String)
    (load : String → List Nat → Except String (List Document))
    (ingested : List (String × String)) :
    ∀ (files : List (String × List Nat)) (d : List Document) (m : List (String × String)),
      (∀ pc ∈ files, dictGet ingested pc.1 = some (compute_file_hash digest pc.2)) →
      processFiles digest load ingested files (d, m) = .ok (d, m) := by
  intro files
  induction files with
  | nil => intro d m _; simp [processFiles]
  | cons fc rest ih =>
    obtain ⟨fp, content⟩ := fc
    intro d m hall
    rw [processFiles]
    rw [if_pos (hall (fp, content) (List.mem_cons_self _ _))]
    exact ih d m (fun qc hqc => hall qc (List.mem_cons_of_mem _ hqc))

theorem processFiles_docs_mono (digest : List Nat → String)
    (load : String → List Nat → Except String (List Document))
    (ingested : List (String × String)) :
    ∀ (files : List (String × List Nat)) (d : List Document) m docs m',
      processFiles digest load ingested files (d, m) = .ok (docs, m') →
      ∃ t, docs = d ++ t := by
  intro files
  induction files with
  | nil =>
    intro d m docs m' h
    simp [processFiles] at h
    exact ⟨[], by simp [h.1]⟩
  | cons fc rest ih =>
    obtain ⟨fp, content⟩ := fc
    intro d m docs m' h
    rw [processFiles] at h
    split at h
    · exact ih d m docs m' h
    · cases hl : load fp content with
      | error e => rw [hl] at h; simp at h
      | ok ds =>
        rw [hl] at h
        simp only at h
        obtain ⟨t, ht⟩ := ih _ _ docs m' h
        exact ⟨_, by rw [ht, List.append_assoc]⟩

theorem processFiles_no_new (digest : List Nat → String)
    (load : String → List Nat → Except String (List Document))
    (ingested : List (String × String))
    (hload : ∀ p c ds, load p c = .ok ds → ds ≠ []) :
    ∀ (files : List (String × List Nat)) (d : List Document) m m',
      processFiles digest load ingested files (d, m) = .ok (d, m') →
      m' = m ∧ ∀ pc ∈ files, dictGet ingested pc.1 = some (compute_file_hash digest pc.2) := by
  intro files
  induction files with
  | nil =>
    intro d m m' h
    simp [processFiles] at h
    exact ⟨h.symm, by simp⟩
  | cons fc rest ih =>
    obtain ⟨fp, content⟩ := fc
    intro d m m' h
    rw [processFiles] at h
    split at h
    · next hskip =>
      obtain ⟨hm, hrest⟩ := ih d m m' h
      refine ⟨hm, ?_⟩
      intro pc hmem
      rcases List.mem_cons.mp hmem with hpc | hpc
      · subst hpc; exact hskip
      · exact hrest pc hpc
    · cases hl : load fp content with
      | error e => rw [hl] at h; simp at h
      | ok ds =>
        rw [hl] at h
        simp only at h
        obtain ⟨t, ht⟩ := processFiles_docs_mono digest load ingested rest _ _ _ _ h
        have hds : ds = [] := by
          have hlen := congrArg List.length ht
          simp [List.length_append] at hlen
          exact hlen.1
        exact absurd hds (hload fp content ds hl)

theorem processFiles_error_of (digest : List Nat → String)
    (load : String → List Nat → Except String (List Document))
    (ingested : List (String × String)) (p : String) (c : List Nat) (e : String)
    (hnew : ¬ dictGet ingested p = some (compute_file_hash digest c))
    (herr : load p c = .error e) :
    ∀ (files : List (String × List Nat)), (p, c) ∈ files →
      ∀ d m, ∃ e', processFiles digest load ingested files (d, m) = .error e' := by
  intro files
  induction files with
  | nil => intro hmem; simp at hmem
  | cons fc rest ih =>
    obtain ⟨fp, content⟩ := fc
    intro hmem d m
    rcases List.mem_cons.mp hmem with hpc | hpc
    · have hp : p = fp := congrArg Prod.fst hpc
      have hc : c = content := congrArg Prod.snd hpc
      subst hp; subst hc
      rw [processFiles, if_neg hnew, herr]
      exact ⟨e, rfl⟩
    · rw [processFiles]
      split
      · exact ih hpc d m
      · cases hl : load fp content with
        | error e2 => exact ⟨e2, rfl⟩
        | ok ds => exact ih hpc _ _

theorem split_documents_length_pos (d : Document) (rest : List Document) :
    1 ≤ (split_documents (d :: rest)).length := by
  simp only [split_documents, List.flatMap_cons, List.length_append, List.length_map]
  have h1 : 0 < (chunkText d.page_content).length := by
    rw [chunkText]
    exact List.length_pos.mpr (chunkTextAux_ne_nil _ _)
  omega

/-!
## Claims
-/

/-- C1: for files whose byte content is unchanged between two ingestion
runs, the second run's change check (needsIngestion) returns false on
every file, every file is skipped (zero documents loaded), and the
manifest persisted after the second run equals the manifest persisted
after the first.  The loader hypothesis is the collaborator contract of
spec section 3 ("a file may yield one or more RawDocuments"). -/
theorem C1_reingest_idempotent (digest : List Nat → String)
    (load : String → List Nat → Except String (List Document))
    (files : List (String × List Nat)) (m0 : List (String × String))
    (msg : String) (m1 : List (String × String))
    (hload : ∀ p c ds, load p c = .ok ds → ds ≠ [])
    (hnd : (files.map Prod.fst).Nodup)
    (h1 : ingest true digest load files m0 = (.ok msg, m1)) :
    ingest true digest load files m1
        = (.ok "No new or changed documents to ingest.", m1)
    ∧ ∀ pc ∈ files, needsIngestion m1 pc.1 (compute_file_hash digest pc.2) = false := by
  suffices hall : ∀ pc ∈ files, dictGet m1 pc.1 = some (compute_file_hash digest pc.2) by
    constructor
    · have hskip := processFiles_all_skip digest load m1 files [] m1 hall
      simp only [ingest]
      rw [if_neg (show ¬(true = false) by decide)]
      rw [load_new_or_changed_documents, hskip]
      rfl
    · intro pc hpc
      rw [needsIngestion_false_iff]
      exact hall pc hpc
  simp only [ingest] at h1
  rw [if_neg (show ¬(true = false) by decide)] at h1
  cases hl : load_new_or_changed_documents digest load files m0 with
  | error e => rw [hl] at h1; simp at h1
  | ok dm =>
    obtain ⟨docs, upd⟩ := dm
    rw [hl] at h1
    rw [load_new_or_changed_documents] at hl
    simp only [] at h1
    split at h1
    · next hde =>
      have hdocs : docs = [] := List.isEmpty_iff.mp hde
      subst hdocs
      obtain ⟨hm, hall0⟩ := processFiles_no_new digest load m0 hload files [] m0 upd hl
      simp only [Prod.mk.injEq, Except.ok.injEq] at h1
      intro pc hpc
      rw [← h1.2]
      exact hall0 pc hpc
    · simp only [Prod.mk.injEq, Except.ok.injEq] at h1
      have hlk := processFiles_lookup digest load m0 files hnd [] m0 docs upd
        (fun _ _ => rfl) hl
      intro pc hpc
      rw [← h1.2]
      exact hlk pc hpc

/-- C1 witness: a concrete corpus of one markdown file, ingested once and
re-ingested. -/
theorem C1_witness :
    ingest true demoDigest demoLoad demoFiles demoM1
        = (.ok "No new or changed documents to ingest.", demoM1)
    ∧ ∀ pc ∈ demoFiles, needsIngestion demoM1 pc.1 (compute_file_hash demoDigest pc.2) = false :=
  C1_reingest_idempotent demoDigest demoLoad demoFiles []
    "Success! Ingested 1 documents (1 chunks)." demoM1
    (by intro p c ds h; injection h with h'; subst h'; simp)
    (by decide) (by decide)

/-- C2: retrieve_relevant_documents never returns a pair whose distance
score exceeds the threshold, and never returns more than k pairs; the
hypothesis is the external index contract that a k-nearest query returns
at most k candidates. -/
theorem C2_retrieve_filter (vsOpt : Option VectorStore) (query : String)
    (sel : List String) (k : Nat) (thr : Rat)
    (hk : ∀ vs, vsOpt = some vs →
      ∀ r, vs.similarity_search_with_score query k sel = .ok r → r.length ≤ k) :
    (∀ p ∈ retrieve_relevant_documents vsOpt query sel k thr, p.2 ≤ thr)
    ∧ (retrieve_relevant_documents vsOpt query sel k thr).length ≤ k := by
  cases vsOpt with
  | none => simp [retrieve_relevant_documents]
  | some vs =>
    by_cases hsel : sel.isEmpty
    · simp [retrieve_relevant_documents, hsel]
    · cases hq : vs.similarity_search_with_score query k sel with
      | error e => simp [retrieve_relevant_documents, hsel, hq]
      | ok results =>
        constructor
        · intro p hp
          simp only [retrieve_relevant_documents, hsel, hq, Bool.false_eq_true,
            if_false, List.mem_filter] at hp
          exact of_decide_eq_true hp.2
        · simp only [retrieve_relevant_documents, hsel, hq, Bool.false_eq_true, if_false]
          exact Nat.le_trans (List.length_filter_le _ _) (hk vs rfl results hq)

/-- C2 witness: a concrete store returning two candidates below a
threshold of 2 for a 5-nearest query. -/
theorem C2_witness :
    (∀ p ∈ retrieve_relevant_documents (some demoStore) "q" ["a.md"] 5 2, p.2 ≤ 2)
    ∧ (retrieve_relevant_documents (some demoStore) "q" ["a.md"] 5 2).length ≤ 5 :=
  C2_retrieve_filter (some demoStore) "q" ["a.md"] 5 2
    (by intro vs hvs r hr
        injection hvs with h
        subst h
        injection hr with h2
        subst h2
        decide)

/-- C3 counterexample: the new-or-changed decision is keyed by file path,
not only by content — with the very hash of previously ingested content,
needsIngestion is false at the original path but true at a different path,
so copying ingested content to a new path marks it as new. -/
theorem C3_counterexample :
    needsIngestion [("docs/a.md", compute_file_hash demoDigest [7, 7])] "docs/a.md"
        (compute_file_hash demoDigest [7, 7]) = false
    ∧ needsIngestion [("docs/a.md", compute_file_hash demoDigest [7, 7])] "docs/b.md"
        (compute_file_hash demoDigest [7, 7]) = true := by decide

/-- C3 (amended): the fingerprint streamed in 8192-byte blocks equals the
digest of the whole byte content — it depends only on bytes, never on
metadata — and the new-or-changed decision is a function of exactly the
manifest entry at the file's path and that content digest. -/
theorem C3_hash_content_only (digest : List Nat → String) (m : List (String × String))
    (p : String) (c : List Nat) :
    compute_file_hash digest c = digest c
    ∧ needsIngestion m p (compute_file_hash digest c) = !(dictGet m p == some (digest c)) := by
  refine ⟨compute_file_hash_eq digest c, ?_⟩
  rw [needsIngestion, compute_file_hash_eq]

/-- C4 counterexample: with three files of which the middle one is
corrupted, ingest propagates the loader error, the persisted manifest
stays empty — no entry even for the first, successfully loaded file — and
no summary string is produced: the batch is aborted. -/
theorem C4_counterexample :
    ingest true demoDigest badLoad c4Files [] = (.error "corrupt file: docs/bad.md", [])
    ∧ dictGet [] "docs/ok1.md" = none := by decide

/-- C4 (amended): when any new-or-changed file's loader raises, the
whole ingestion run aborts with that uncaught error: remaining files are
not processed and the persisted manifest is unchanged, so every file of
the run (the failing one included) is retried on the next run. -/
theorem C4_load_error_aborts (digest : List Nat → String)
    (load : String → List Nat → Except String (List Document))
    (files : List (String × List Nat)) (m0 : List (String × String))
    (p : String) (c : List Nat) (e : String)
    (hmem : (p, c) ∈ files)
    (hnew : ¬ dictGet m0 p = some (compute_file_hash digest c))
    (herr : load p c = .error e) :
    ∃ e', ingest true digest load files m0 = (.error e', m0) := by
  obtain ⟨e', hpf⟩ := processFiles_error_of digest load m0 p c e hnew herr files hmem [] m0
  refine ⟨e', ?_⟩
  simp only [ingest]
  rw [if_neg (show ¬(true = false) by decide)]
  rw [load_new_or_changed_documents, hpf]

/-- C4 witness: the amended statement at the concrete corrupted corpus. -/
theorem C4_witness :
    ∃ e', ingest true demoDigest badLoad c4Files [] = (.error e', []) :=
  C4_load_error_aborts demoDigest badLoad c4Files [] "docs/bad.md" [2]
    "corrupt file: docs/bad.md" (by decide) (by decide) (by decide)

/-- C7: every fragment produced by split_documents has text of at most 500
characters (the empty-string fallback separator means no atomic unit is
ever kept above the limit, which satisfies the claimed bound), each
fragment carries its source document's metadata unchanged, and the
fragments of each document appear in chunk order before those of later
documents. -/
theorem C7_split_documents_spec :
    (∀ (docs : List Document) (frag : Document), frag ∈ split_documents docs →
      frag.page_content.length ≤ 500 ∧ ∃ d ∈ docs, frag.metadata = d.metadata)
    ∧ ∀ (d : Document) (rest : List Document),
        split_documents (d :: rest)
          = ((chunkText d.page_content).map fun t =>
              { page_content := t, metadata := d.metadata }) ++ split_documents rest := by
  constructor
  · intro docs frag hf
    simp only [split_documents, List.mem_flatMap, List.mem_map] at hf
    obtain ⟨d, hd, t, ht, hfrag⟩ := hf
    rw [chunkText] at ht
    constructor
    · have hb := chunkTextAux_length_le d.page_content.length d.page_content
        (Nat.le_refl _) t ht
      rw [← hfrag]
      exact hb
    · exact ⟨d, hd, by rw [← hfrag]⟩
  · intro d rest
    simp [split_documents]

/-- C7 witness: a one-document corpus whose single fragment satisfies the
bound and inherits the metadata. -/
theorem C7_witness :
    ({ page_content := "hello world".toList, metadata := [("source", "a.md")] } : Document)
        ∈ split_documents
            [{ page_content := "hello world".toList, metadata := [("source", "a.md")] }]
    ∧ (({ page_content := "hello world".toList,
          metadata := [("source", "a.md")] } : Document).page_content.length ≤ 500
      ∧ ∃ d ∈ [({ page_content := "hello world".toList,
                  metadata := [("source", "a.md")] } : Document)],
          ({ page_content := "hello world".toList,
             metadata := [("source", "a.md")] } : Document).metadata = d.metadata) :=
  ⟨by decide, C7_split_documents_spec.1 _ _ (by decide)⟩

/-- C8: concatenating the fragments split_documents produces for one
document, dropping the leading 50-character overlap of every fragment
after the first, reconstructs the original document text. -/
theorem C8_split_lossless (d : Document) :
    reconstructOverlap ((split_documents [d]).map Document.page_content)
      = d.page_content := by
  have hmap : (split_documents [d]).map Document.page_content
      = chunkText d.page_content := by
    simp only [split_documents, List.flatMap_cons, List.flatMap_nil,
      List.append_nil, List.map_map]
    show List.map id (chunkText d.page_content) = chunkText d.page_content
    exact List.map_id _
  rw [hmap, chunkText]
  exact reconstruct_chunkTextAux d.page_content.length d.page_content (Nat.le_refl _)

/-- C9: whenever ingest returns (rather than propagating a loader error),
the returned string is exactly one of the three summary strings, under
exactly the claimed conditions: the created-directory string when the docs
directory was absent, the no-new string when no file is new or changed,
and otherwise the success string with N the number of loaded documents,
M ≥ 1 the number of chunks, the persisted manifest holding an entry for
every file of the run. -/
theorem C9_ingest_summary (dirExists : Bool) (digest : List Nat → String)
    (load : String → List Nat → Except String (List Document))
    (files : List (String × List Nat)) (m0 : List (String × String))
    (msg : String) (m' : List (String × String))
    (hload : ∀ p c ds, load p c = .ok ds → ds ≠ [])
    (hnd : (files.map Prod.fst).Nodup)
    (h : ingest dirExists digest load files m0 = (.ok msg, m')) :
    (dirExists = false ∧ msg = "Created docs. Please upload documents." ∧ m' = m0)
    ∨ (dirExists = true ∧ msg = "No new or changed documents to ingest." ∧ m' = m0
        ∧ ∀ pc ∈ files, needsIngestion m0 pc.1 (compute_file_hash digest pc.2) = false)
    ∨ (dirExists = true
        ∧ ∃ documents updated,
            load_new_or_changed_documents digest load files m0 = .ok (documents, updated)
            ∧ documents ≠ []
            ∧ msg = "Success! Ingested " ++ toString documents.length ++ " documents ("
                ++ toString (split_documents documents).length ++ " chunks)."
            ∧ 1 ≤ (split_documents documents).length
            ∧ m' = updated
            ∧ ∀ pc ∈ files, dictGet updated pc.1 = some (compute_file_hash digest pc.2)) := by
  cases dirExists with
  | false =>
    left
    simp [ingest] at h
    exact ⟨rfl, h.1.symm, h.2.symm⟩
  | true =>
    right
    simp only [ingest] at h
    rw [if_neg (show ¬(true = false) by decide)] at h
    cases hl : load_new_or_changed_documents digest load files m0 with
    | error e => rw [hl] at h; simp at h
    | ok dm =>
      obtain ⟨docs, upd⟩ := dm
      rw [hl] at h
      simp only [] at h
      split at h
      · next hde =>
        left
        have hdocs : docs = [] := List.isEmpty_iff.mp hde
        subst hdocs
        rw [load_new_or_changed_documents] at hl
        obtain ⟨hm, hall0⟩ := processFiles_no_new digest load m0 hload files [] m0 upd hl
        simp only [Prod.mk.injEq, Except.ok.injEq] at h
        refine ⟨rfl, h.1.symm, h.2.symm, ?_⟩
        intro pc hpc
        rw [needsIngestion_false_iff]
        exact hall0 pc hpc
      · next hde =>
        right
        have hdocs : docs ≠ [] := by
          intro hd; subst hd; simp at hde
        simp only [Prod.mk.injEq, Except.ok.injEq] at h
        refine ⟨rfl, docs, upd, rfl, hdocs, h.1.symm, ?_, h.2.symm, ?_⟩
        · obtain ⟨d0, rest0, hd0⟩ := List.exists_cons_of_ne_nil hdocs
          rw [hd0]
          exact split_documents_length_pos d0 rest0
        · rw [load_new_or_changed_documents] at hl
          exact processFiles_lookup digest load m0 files hnd [] m0 docs upd
            (fun _ _ => rfl) hl

/-- C9 witness: the success case on a concrete one-file corpus. -/
theorem C9_witness :
    (true = false ∧ "Success! Ingested 1 documents (1 chunks)."
        = "Created docs. Please upload documents." ∧ demoM1 = ([] : List (String × String)))
    ∨ (true = true ∧ "Success! Ingested 1 documents (1 chunks)."
        = "No new or changed documents to ingest." ∧ demoM1 = ([] : List (String × String))
        ∧ ∀ pc ∈ demoFiles, needsIngestion [] pc.1 (compute_file_hash demoDigest pc.2) = false)
    ∨ (true = true
        ∧ ∃ documents updated,
            load_new_or_changed_documents demoDigest demoLoad demoFiles [] = .ok (documents, updated)
            ∧ documents ≠ []
            ∧ "Success! Ingested 1 documents (1 chunks)."
                = "Success! Ingested " ++ toString documents.length ++ " documents ("
                  ++ toString (split_documents documents).length ++ " chunks)."
            ∧ 1 ≤ (split_documents documents).length
            ∧ demoM1 = updated
            ∧ ∀ pc ∈ demoFiles, dictGet updated pc.1 = some (compute_file_hash demoDigest pc.2)) :=
  C9_ingest_summary true demoDigest demoLoad demoFiles []
    "Success! Ingested 1 documents (1 chunks)." demoM1
    (by intro p c ds h; injection h with h'; subst h'; simp)
    (by decide) (by decide)

/-!
## Lemmas about pyStrip, splitNl and intercalate
-/

theorem isPrefixOf_self (l : List Char) : l.isPrefixOf l = true := by
  induction l with
  | nil => rfl
  | cons a t ih => simp [List.isPrefixOf, ih]

theorem findSub_self (l : List Char) : findSub l l = some 0 := by
  rw [findSub.eq_def, if_pos (isPrefixOf_self l)]

theorem reSub_nil (pat : List Char → Nat) : reSub pat [] = [] := rfl

theorem intercalate_nil : List.intercalate ['\n'] ([] : List (List Char)) = [] := rfl

theorem head?_dropWhile_false (p : Char → Bool) :
    ∀ (l : List Char) (c : Char), (l.dropWhile p).head? = some c → p c = false := by
  intro l
  induction l with
  | nil => intro c h; simp [List.dropWhile] at h
  | cons a t ih =>
    intro c h
    by_cases hp : p a
    · rw [List.dropWhile_cons, if_pos hp] at h
      exact ih c h
    · rw [List.dropWhile_cons, if_neg hp] at h
      simp at h
      subst h
      simpa using hp

theorem dropWhile_eq_self_of_head (p : Char → Bool) (l : List Char)
    (h : ∀ c, l.head? = some c → p c = false) : l.dropWhile p = l := by
  cases l with
  | nil => rfl
  | cons a t =>
    have ha := h a rfl
    rw [List.dropWhile_cons, if_neg (by simp [ha])]

theorem getLast?_dropWhile (p : Char → Bool) :
    ∀ l : List Char, l.dropWhile p ≠ [] → (l.dropWhile p).getLast? = l.getLast? := by
  intro l
  induction l with
  | nil => intro h; simp [List.dropWhile] at h
  | cons a t ih =>
    intro h
    by_cases hp : p a
    · rw [List.dropWhile_cons, if_pos hp] at h ⊢
      rw [ih h]
      cases t with
      | nil => simp [List.dropWhile] at h
      | cons b t' => simp [List.getLast?_cons_cons]
    · rw [List.dropWhile_cons, if_neg hp]

theorem pyStrip_nil : pyStrip [] = [] := rfl

theorem pyStrip_head (l : List Char) (c : Char) (h : (pyStrip l).head? = some c) :
    isPySpace c = false := by
  rw [pyStrip, List.head?_reverse] at h
  have hne : List.dropWhile isPySpace (List.dropWhile isPySpace l).reverse ≠ [] := by
    intro h0; rw [h0] at h; simp at h
  rw [getLast?_dropWhile _ _ hne, List.getLast?_reverse] at h
  exact head?_dropWhile_false _ l c h

theorem pyStrip_last (l : List Char) (c : Char) (h : (pyStrip l).getLast? = some c) :
    isPySpace c = false := by
  rw [pyStrip, List.getLast?_reverse] at h
  exact head?_dropWhile_false _ _ c h

theorem pyStrip_eq_self (l : List Char)
    (hh : ∀ c, l.head? = some c → isPySpace c = false)
    (hl : ∀ c, l.getLast? = some c → isPySpace c = false) : pyStrip l = l := by
  rw [pyStrip, dropWhile_eq_self_of_head _ l hh,
    dropWhile_eq_self_of_head _ l.reverse
      (fun c hc => hl c (by rwa [List.head?_reverse] at hc))]
  exact List.reverse_reverse l

theorem pyStrip_idem (l : List Char) : pyStrip (pyStrip l) = pyStrip l :=
  pyStrip_eq_self _ (pyStrip_head l) (pyStrip_last l)

theorem mem_pyStrip (l : List Char) (x : Char) (h : x ∈ pyStrip l) : x ∈ l := by
  rw [pyStrip, List.mem_reverse] at h
  have h1 := (List.dropWhile_sublist _).mem h
  rw [List.mem_reverse] at h1
  exact (List.dropWhile_sublist _).mem h1

theorem splitNl_ne_nil (l : List Char) : splitNl l ≠ [] := by
  cases l with
  | nil => simp [splitNl]
  | cons c rest =>
    rw [splitNl]
    split
    · simp
    · split <;> simp

theorem mem_splitNl_no_newline : ∀ (l : List Char) (x : List Char),
    x ∈ splitNl l → '\n' ∉ x := by
  intro l
  induction l with
  | nil =>
    intro x hx
    simp [splitNl] at hx
    subst hx; simp
  | cons c rest ih =>
    intro x hx
    rw [splitNl] at hx
    by_cases hc : c == '\n'
    · rw [if_pos hc] at hx
      rcases List.mem_cons.mp hx with h | h
      · subst h; simp
      · exact ih x h
    · rw [if_neg hc] at hx
      cases hs : splitNl rest with
      | nil => exact absurd hs (splitNl_ne_nil rest)
      | cons y ys =>
        rw [hs] at hx
        rcases List.mem_cons.mp hx with h | h
        · subst h
          intro hmem
          rcases List.mem_cons.mp hmem with h1 | h1
          · subst h1
            exact hc (beq_self_eq_true _)
          · exact ih y (by rw [hs]; exact List.mem_cons_self y ys) h1
        · exact ih x (by rw [hs]; exact List.mem_cons_of_mem y h)

theorem splitNl_single (l : List Char) (h : '\n' ∉ l) : splitNl l = [l] := by
  induction l with
  | nil => rfl
  | cons c rest ih =>
    have h1 : c ≠ '\n' := fun hh => h (by rw [hh]; exact List.mem_cons_self _ _)
    have h2 : '\n' ∉ rest := fun hh => h (List.mem_cons_of_mem _ hh)
    rw [splitNl, if_neg (by simp [h1]), ih h2]

theorem splitNl_append (u : List Char) (rest : List Char) (h : '\n' ∉ u) :
    splitNl (u ++ '\n' :: rest) = u :: splitNl rest := by
  induction u with
  | nil => simp [splitNl]
  | cons c u' ih =>
    have h1 : c ≠ '\n' := fun hh => h (by rw [hh]; exact List.mem_cons_self _ _)
    have h2 : '\n' ∉ u' := fun hh => h (List.mem_cons_of_mem _ hh)
    rw [List.cons_append, splitNl, if_neg (by simp [h1]), ih h2]

theorem intercalate_cons_cons (a b : List Char) (t : List (List Char)) :
    List.intercalate ['\n'] (a :: b :: t) = a ++ '\n' :: List.intercalate ['\n'] (b :: t) := by
  simp [List.intercalate, List.intersperse]

theorem intercalate_single (u : List Char) : List.intercalate ['\n'] [u] = u := by
  simp [List.intercalate]

theorem intercalate_ne_nil (v : List Char) (t : List (List Char)) (hv : v ≠ []) :
    List.intercalate ['\n'] (v :: t) ≠ [] := by
  cases t with
  | nil => rw [intercalate_single]; exact hv
  | cons b t' =>
    rw [intercalate_cons_cons]
    intro h0
    rcases List.append_eq_nil.mp h0 with ⟨_, h2⟩
    cases h2

theorem splitNl_intercalate : ∀ (U : List (List Char)), U ≠ [] →
    (∀ u ∈ U, '\n' ∉ u) → splitNl (List.intercalate ['\n'] U) = U := by
  intro U
  induction U with
  | nil => intro h; exact absurd rfl h
  | cons u t ih =>
    intro _ hU
    cases t with
    | nil => rw [intercalate_single, splitNl_single u (hU u (List.mem_cons_self _ _))]
    | cons v t' =>
      rw [intercalate_cons_cons, splitNl_append u _ (hU u (List.mem_cons_self _ _)),
        ih (by simp) (fun w hw => hU w (List.mem_cons_of_mem _ hw))]

theorem intercalate_splitNl : ∀ (l : List Char),
    List.intercalate ['\n'] (splitNl l) = l := by
  intro l
  induction l with
  | nil => rw [show splitNl [] = [[]] from rfl, intercalate_single]
  | cons c rest ih =>
    by_cases hc : c = '\n'
    · subst hc
      rw [show splitNl ('\n' :: rest) = [] :: splitNl rest by simp [splitNl]]
      cases hs : splitNl rest with
      | nil => exact absurd hs (splitNl_ne_nil rest)
      | cons y ys =>
        rw [intercalate_cons_cons]
        rw [hs] at ih
        simp [ih]
    · cases hs : splitNl rest with
      | nil => exact absurd hs (splitNl_ne_nil rest)
      | cons y ys =>
        have hsp : splitNl (c :: rest) = (c :: y) :: ys := by
          rw [splitNl, if_neg (by simp [hc]), hs]
        rw [hsp]
        rw [hs] at ih
        cases ys with
        | nil =>
          rw [intercalate_single] at ih
          rw [intercalate_single, ih]
        | cons z zs =>
          rw [intercalate_cons_cons] at ih
          rw [intercalate_cons_cons, List.cons_append, ih]

theorem head?_intercalate (u : List Char) (t : List (List Char)) (hu : u ≠ []) :
    (List.intercalate ['\n'] (u :: t)).head? = u.head? := by
  obtain ⟨c, cs, rfl⟩ := List.exists_cons_of_ne_nil hu
  cases t with
  | nil => rw [intercalate_single]
  | cons b t' => rw [intercalate_cons_cons]; rfl

theorem getLast?_intercalate : ∀ (U : List (List Char)), U ≠ [] →
    (∀ u ∈ U, u ≠ []) →
    ∃ u ∈ U, (List.intercalate ['\n'] U).getLast? = u.getLast? := by
  intro U
  induction U with
  | nil => intro h; exact absurd rfl h
  | cons u t ih =>
    intro _ hU
    cases t with
    | nil => exact ⟨u, List.mem_cons_self _ _, by rw [intercalate_single]⟩
    | cons v t' =>
      obtain ⟨w, hw, hwl⟩ := ih (by simp) (fun x hx => hU x (List.mem_cons_of_mem _ hx))
      refine ⟨w, List.mem_cons_of_mem _ hw, ?_⟩
      rw [intercalate_cons_cons, List.getLast?_append_of_ne_nil _ (by simp)]
      have hne : List.intercalate ['\n'] (v :: t') ≠ [] :=
        intercalate_ne_nil v t' (hU v (by simp))
      obtain ⟨z, zs, hz⟩ := List.exists_cons_of_ne_nil hne
      rw [hz, List.getLast?_cons_cons, ← hz, hwl]

theorem strip_intercalate (U : List (List Char)) (hne : U ≠ [])
    (helem : ∀ u ∈ U, pyStrip u = u ∧ u ≠ []) :
    pyStrip (List.intercalate ['\n'] U) = List.intercalate ['\n'] U := by
  obtain ⟨u, t, rfl⟩ := List.exists_cons_of_ne_nil hne
  apply pyStrip_eq_self
  · intro c hc
    rw [head?_intercalate u t (helem u (by simp)).2] at hc
    have hu := (helem u (by simp)).1
    rw [← hu] at hc
    exact pyStrip_head u c hc
  · intro c hc
    obtain ⟨w, hw, hwl⟩ := getLast?_intercalate (u :: t) (by simp)
      (fun x hx => (helem x hx).2)
    rw [hwl] at hc
    have hwst := (helem w hw).1
    rw [← hwst] at hc
    exact pyStrip_last w c hc

/-!
## Lemmas about dedupLines
-/

theorem dedupLines_mem : ∀ (lines seen : List (List Char)) (u : List Char),
    u ∈ dedupLines lines seen →
    ∃ line ∈ lines, u = pyStrip line ∧ u ≠ [] ∧ 3 < u.length := by
  intro lines
  induction lines with
  | nil => intro seen u h; simp [dedupLines] at h
  | cons line rest ih =>
    intro seen u h
    simp only [dedupLines] at h
    split at h
    · next hcond =>
      rcases List.mem_cons.mp h with h1 | h1
      · subst h1
        refine ⟨line, List.mem_cons_self _ _, rfl, ?_, ?_⟩
        · intro h0
          exact hcond.1 (by rw [h0]; rfl)
        · have := hcond.2.2
          simpa [pyLower] using this
      · obtain ⟨line', hl', hrest⟩ := ih _ u h1
        exact ⟨line', List.mem_cons_of_mem _ hl', hrest⟩
    · obtain ⟨line', hl', hrest⟩ := ih _ u h
      exact ⟨line', List.mem_cons_of_mem _ hl', hrest⟩

theorem dedupLines_nodup : ∀ (lines seen : List (List Char)),
    ((dedupLines lines seen).map pyLower).Nodup
    ∧ ∀ u ∈ dedupLines lines seen, pyLower u ∉ seen := by
  intro lines
  induction lines with
  | nil => intro seen; simp [dedupLines]
  | cons line rest ih =>
    intro seen
    simp only [dedupLines]
    split
    · next hcond =>
      obtain ⟨ihn, ihs⟩ := ih (pyLower (pyStrip line) :: seen)
      constructor
      · rw [List.map_cons]
        refine List.nodup_cons.mpr ⟨?_, ihn⟩
        intro hmem
        obtain ⟨u, hu, hequ⟩ := List.mem_map.mp hmem
        have := ihs u hu
        rw [hequ] at this
        exact this (List.mem_cons_self _ _)
      · intro u hu
        rcases List.mem_cons.mp hu with h1 | h1
        · subst h1
          exact hcond.2.1
        · have := ihs u h1
          exact fun hmem => this (List.mem_cons_of_mem _ hmem)
    · obtain ⟨ihn, ihs⟩ := ih seen
      exact ⟨ihn, ihs⟩

theorem dedupLines_fixed : ∀ (U seen : List (List Char)),
    ((U.map pyLower).Nodup) →
    (∀ u ∈ U, pyStrip u = u ∧ u ≠ [] ∧ 3 < u.length) →
    (∀ u ∈ U, pyLower u ∉ seen) →
    dedupLines U seen = U := by
  intro U
  induction U with
  | nil => intro seen _ _ _; rfl
  | cons u t ih =>
    intro seen hnd helem hseen
    obtain ⟨hstrip, hne, hlen⟩ := helem u (List.mem_cons_self _ _)
    have hcond : pyLower (pyStrip u) ≠ [] ∧ pyLower (pyStrip u) ∉ seen
        ∧ 3 < (pyLower (pyStrip u)).length := by
      rw [hstrip]
      refine ⟨?_, hseen u (List.mem_cons_self _ _), ?_⟩
      · simpa [pyLower] using hne
      · simpa [pyLower] using hlen
    simp only [dedupLines, if_pos hcond]
    rw [hstrip]
    have hnd' : (pyLower u :: t.map pyLower).Nodup := by
      rw [List.map_cons] at hnd; exact hnd
    have hhead : pyLower u ∉ t.map pyLower := (List.nodup_cons.mp hnd').1
    have htail : (t.map pyLower).Nodup := (List.nodup_cons.mp hnd').2
    rw [ih (pyLower u :: seen) htail
      (fun v hv => helem v (List.mem_cons_of_mem _ hv))
      (fun v hv => by
        intro hmem
        rcases List.mem_cons.mp hmem with h1 | h1
        · exact hhead (h1 ▸ List.mem_map_of_mem pyLower hv)
        · exact hseen v (List.mem_cons_of_mem _ hv) h1)]

/-!
## Structure of non-null clean_response results
-/

theorem clean_response_eq (r q : List Char) :
    clean_response r q
      = if (cleanPipeline r q).length < 15 ∨ pyLower (cleanPipeline r q) = pyLower q
        then none else some (cleanPipeline r q) := rfl

theorem cleanPipeline_shape (r q : List Char) :
    ∃ s, cleanPipeline r q
      = pyStrip (List.intercalate ['\n'] (dedupLines (splitNl s) [])) :=
  ⟨_, rfl⟩

theorem clean_some_spec (r q a : List Char) (h : clean_response r q = some a) :
    15 ≤ a.length ∧ pyLower a ≠ pyLower q ∧ pyStrip a = a
    ∧ ((splitNl a).map pyLower).Nodup
    ∧ ∀ u ∈ splitNl a, pyStrip u = u ∧ u ≠ [] ∧ 3 < u.length := by
  rw [clean_response_eq] at h
  by_cases hc : (cleanPipeline r q).length < 15 ∨ pyLower (cleanPipeline r q) = pyLower q
  · rw [if_pos hc] at h; cases h
  · rw [if_neg hc] at h
    have ha : cleanPipeline r q = a := Option.some.inj h
    push_neg at hc
    rw [ha] at hc
    obtain ⟨s, hs⟩ := cleanPipeline_shape r q
    rw [ha] at hs
    have hUelem : ∀ u ∈ dedupLines (splitNl s) [],
        pyStrip u = u ∧ u ≠ [] ∧ 3 < u.length ∧ '\n' ∉ u := by
      intro u hu
      obtain ⟨line, hline, hustrip, hune, hulen⟩ := dedupLines_mem (splitNl s) [] u hu
      refine ⟨by rw [hustrip]; exact pyStrip_idem line, hune, hulen, ?_⟩
      intro hmem
      exact mem_splitNl_no_newline s line hline
        (mem_pyStrip line '\n' (hustrip ▸ hmem))
    have hUnodup : ((dedupLines (splitNl s) []).map pyLower).Nodup :=
      (dedupLines_nodup (splitNl s) []).1
    have hUne : dedupLines (splitNl s) [] ≠ [] := by
      intro h0
      rw [h0, intercalate_nil, pyStrip_nil] at hs
      rw [hs] at hc
      simp at hc
    have hstripI : pyStrip (List.intercalate ['\n'] (dedupLines (splitNl s) []))
        = List.intercalate ['\n'] (dedupLines (splitNl s) []) :=
      strip_intercalate _ hUne (fun u hu => ⟨(hUelem u hu).1, (hUelem u hu).2.1⟩)
    have haI : a = List.intercalate ['\n'] (dedupLines (splitNl s) []) := by
      rw [hs, hstripI]
    have hsplit : splitNl a = dedupLines (splitNl s) [] := by
      rw [haI]
      exact splitNl_intercalate _ hUne (fun u hu => (hUelem u hu).2.2.2)
    refine ⟨by omega, hc.2, ?_, ?_, ?_⟩
    · rw [hs]; exact pyStrip_idem _
    · rw [hsplit]; exact hUnodup
    · intro u hu
      rw [hsplit] at hu
      exact ⟨(hUelem u hu).1, (hUelem u hu).2.1, (hUelem u hu).2.2.1⟩

theorem pyLower_nil : pyLower [] = [] := rfl

theorem cleanPipeline_self (q : List Char) (hq : pyStrip q = q) (hlen : q.length ≤ 150) :
    cleanPipeline q q = [] := by
  have hlow : (pyLower q).take 150 = pyLower q :=
    List.take_of_length_le (by simpa [pyLower] using hlen)
  have hfs : (findSub ((pyLower q).take 150) (pyLower q)).isSome = true := by
    rw [hlow, findSub_self]; rfl
  simp [cleanPipeline, hq, hfs, findSub_self, List.drop_length, pyStrip_nil,
    pyLower_nil, reSub_nil, intercalate_nil, splitNl, dedupLines]

/-- C5 counterexample: a raw output equal to the original question where the
question carries surrounding whitespace — the stripped output no longer
contains the unstripped question, the echo excision is skipped, and
clean_response returns the stripped text, not null. -/
theorem C5_counterexample :
    clean_response " this is my question here? ".toList " this is my question here? ".toList
      = some "this is my question here?".toList := by decide

/-- C5 (amended): clean_response returns null exactly when the pipeline
result is shorter than 15 characters or case-insensitively equals the
original question; and a raw output equal to the original question yields
null provided the question is whitespace-trimmed and at most 150
characters long (otherwise the echo excision can be skipped and the claim
fails, as the counterexample shows). -/
theorem C5_clean_none_iff (r q : List Char) :
    (clean_response r q = none
      ↔ (cleanPipeline r q).length < 15 ∨ pyLower (cleanPipeline r q) = pyLower q)
    ∧ (pyStrip q = q → q.length ≤ 150 → clean_response q q = none) := by
  constructor
  · rw [clean_response_eq]
    by_cases hc : (cleanPipeline r q).length < 15 ∨ pyLower (cleanPipeline r q) = pyLower q
    · rw [if_pos hc]; simp [hc]
    · rw [if_neg hc]; simp [hc]
  · intro hq hlen
    rw [clean_response_eq, cleanPipeline_self q hq hlen,
      if_pos (Or.inl (by simp))]

/-- C5 witness: a trimmed 15-character question echoed verbatim is
rejected. -/
theorem C5_witness :
    clean_response "what is doclet?".toList "what is doclet?".toList = none :=
  (C5_clean_none_iff "what is doclet?".toList "what is doclet?".toList).2
    (by decide) (by decide)

/-- C6 counterexample: a non-null cleaned answer that still contains the
question is cleaned again to a different result (here: to null), so
clean_response is not idempotent as claimed. -/
theorem C6_counterexample :
    clean_response "what is x? well, what is x is a question".toList "what is x".toList
      = some "? well, what is x is a question".toList
    ∧ clean_response "? well, what is x is a question".toList "what is x".toList
      = none := by decide

/-- C6 (amended): clean_response is idempotent on its non-null results
provided the cleaned text does not contain the question (case-insensitive)
within its first 150 characters and is left unchanged by the two
boilerplate-prefix substitutions; the counterexample shows the first
proviso cannot be dropped. -/
theorem C6_clean_idempotent (r q a : List Char)
    (h : clean_response r q = some a)
    (hecho : findSub ((pyLower a).take 150) (pyLower q) = none)
    (hp1 : reSub matchPat1 a = a)
    (hp2 : reSub matchPat2 a = a) :
    clean_response a q = some a := by
  obtain ⟨h15, hneq, hstrip, hnodup, hlines⟩ := clean_some_spec r q a h
  have hdedup : dedupLines (splitNl a) [] = splitNl a :=
    dedupLines_fixed (splitNl a) [] hnodup hlines (by simp)
  have hpipe : cleanPipeline a q = a := by
    simp only [cleanPipeline, hstrip, hecho, Option.isSome_none, Bool.false_eq_true,
      if_false, hp1, hp2, hdedup, intercalate_splitNl]
  rw [clean_response_eq, hpipe, if_neg (by push_neg; exact ⟨by omega, hneq⟩)]

/-- C6 witness: an already-clean answer free of question echo and
boilerplate prefixes is a fixed point of clean_response. -/
theorem C6_witness :
    clean_response "The answer is forty two actually".toList "zzz".toList
      = some "The answer is forty two actually".toList :=
  C6_clean_idempotent "The answer is forty two actually".toList "zzz".toList
    "The answer is forty two actually".toList
    (by decide) (by decide) (by decide) (by decide)

/-- C10: every non-null clean_response result has length at least 15, is
not case-insensitively equal to the original question, has pairwise
distinct lowercased trimmed lines, and every line's trimmed length exceeds
3 characters. -/
theorem C10_clean_wellformed (r q a : List Char) (h : clean_response r q = some a) :
    15 ≤ a.length ∧ pyLower a ≠ pyLower q
    ∧ ((splitNl a).map fun l => pyLower (pyStrip l)).Nodup
    ∧ ∀ l ∈ splitNl a, 3 < (pyStrip l).length := by
  obtain ⟨h15, hneq, _, hnodup, hlines⟩ := clean_some_spec r q a h
  refine ⟨h15, hneq, ?_, ?_⟩
  · have hcongr : ((splitNl a).map fun l => pyLower (pyStrip l))
        = (splitNl a).map pyLower :=
      List.map_congr_left (fun u hu => by rw [(hlines u hu).1])
    rw [hcongr]; exact hnodup
  · intro l hl
    rw [(hlines l hl).1]
    exact (hlines l hl).2.2

/-- C10 witness: a concrete non-null cleaning satisfying all four
well-formedness properties. -/
theorem C10_witness :
    15 ≤ "Paris is the capital of France".toList.length
    ∧ pyLower "Paris is the capital of France".toList ≠ pyLower "zzz".toList
    ∧ ((splitNl "Paris is the capital of France".toList).map
        fun l => pyLower (pyStrip l)).Nodup
    ∧ ∀ l ∈ splitNl "Paris is the capital of France".toList, 3 < (pyStrip l).length :=
  C10_clean_wellformed "Paris is the capital of France".toList "zzz".toList
    "Paris is the capital of France".toList (by decide)
